import Mathlib

/-!
Verification development for the SystemBridge repository.

This file gives a shallow embedding, in Lean 4, of the two core subsystems
of the repository:

* the file-watch normalization and debouncing pipeline
  (src/modules/fileWatcher/index.ts, class FileWatcher), and
* the process lifecycle manager
  (src/modules/processManager/index.ts, class ProcessManager)
  together with the direct execution helper (src/utils/exec.ts).

Pure computations of the TypeScript source are translated into Lean
functions; the stateful, event-driven parts (the per-subscription debounce
queue, the managed-process set) are translated into explicit state-passing
step functions over traces of input events.  External collaborators
(chokidar, ps-list, process.kill, child_process.spawn) are represented by
their narrow interfaces exactly as the source consumes them.
-/

namespace SystemBridge

/-! ## Path model

Node's path strings are modelled as POSIX-style paths: an absoluteness flag
plus a list of segments.  The functions below mirror the semantics of
node's path.join, path.relative and path.isAbsolute as used by the source
(join of an absolute base with a relative tail, and relative between two
already-resolved paths). -/

/-- A filesystem path: absolute flag plus segments. -/
structure NPath where
  abs : Bool
  segs : List String
deriving DecidableEq

/-- Path normalization: drop empty and dot segments and resolve dot-dot
segments against the accumulated stack, as node's path.normalize does.
The first list is the (reversed) stack of already-kept segments. -/
def normStack (abs : Bool) : List String → List String → List String
  | stack, [] => stack.reverse
  | stack, seg :: rest =>
    if seg = "." ∨ seg = "" then normStack abs stack rest
    else if seg = ".." then
      match stack with
      | [] => if abs then normStack abs [] rest else normStack abs [".."] rest
      | top :: stack2 =>
        if top = ".." then normStack abs (".." :: top :: stack2) rest
        else normStack abs stack2 rest
    else normStack abs (seg :: stack) rest

/-- Normalize the segment list of a path. -/
def normSegs (abs : Bool) (segs : List String) : List String :=
  normStack abs [] segs

/-- node path.join(p, q): concatenate and normalize, keeping the
absoluteness of the first component (the source only joins a relative
event path onto the cwd). -/
def pathJoin (p q : NPath) : NPath :=
  ⟨p.abs, normSegs p.abs (p.segs ++ q.segs)⟩

/-- Drop the longest common leading run of segments of two paths. -/
def stripCommon : List String → List String → List String × List String
  | a :: as, b :: bs => if a = b then stripCommon as bs else (a :: as, b :: bs)
  | as, bs => (as, bs)

/-- node path.relative(f, t): normalize both sides, drop the common
prefix segments, then climb out of what remains of f and descend into
what remains of t. -/
def pathRelative (f t : NPath) : NPath :=
  let fs := normSegs f.abs f.segs
  let ts := normSegs t.abs t.segs
  let p := stripCommon fs ts
  ⟨false, p.1.map (fun _ => "..") ++ p.2⟩

namespace FileWatcher

/-! ## File watcher data model (src/modules/fileWatcher/index.ts) -/

/-- FileSystemEventType from the source: the four canonical event kinds. -/
inductive FileSystemEventType where
  | create
  | change
  | delete
  | directory
deriving DecidableEq

/-- Opaque fs.Stats payload: the source never inspects it, only passes it
through from the underlying primitive into the emitted event. -/
abbrev Stats := Nat

/-- FileSystemEvent from the source: the canonical normalized event.  The
field named path in the source holds the computed absolute path; the
relativePath field is optional in the interface (always populated by
mapEvent). -/
structure FileSystemEvent where
  type : FileSystemEventType
  path : NPath
  relativePath : Option NPath
  stats : Option Stats
deriving DecidableEq

/-- The raw signal kinds emitted by the underlying change-notification
primitive (chokidar): add, change, unlink, addDir, unlinkDir. -/
inductive RawSignalKind where
  | add
  | change
  | unlink
  | addDir
  | unlinkDir
deriving DecidableEq

/-- The canonical event type chosen by the watcher wiring for each raw
signal kind (the five .on handlers in subscribe). -/
def rawEventType : RawSignalKind → FileSystemEventType
  | .add => .create
  | .change => .change
  | .unlink => .delete
  | .addDir => .directory
  | .unlinkDir => .directory

/-- The stats payload forwarded for each raw signal kind: only the add and
change handlers of the source receive and forward stats. -/
def rawStats : RawSignalKind → Option Stats → Option Stats
  | .add, st => st
  | .change, st => st
  | .unlink, _ => none
  | .addDir, _ => none
  | .unlinkDir, _ => none

/-- mapEvent from subscribe: build the canonical event.  If the raw path
is already absolute it is used as is, otherwise it is joined onto the
cwd; the relative path is recomputed from the cwd. -/
def mapEvent (cwd : NPath) (type : FileSystemEventType) (filePath : NPath)
    (stats : Option Stats) : FileSystemEvent :=
  let absolutePath := if filePath.abs then filePath else pathJoin cwd filePath
  { type := type
    path := absolutePath
    relativePath := some (pathRelative cwd absolutePath)
    stats := stats }

/-- The event wiring of subscribe: the canonical events produced for one
raw signal (one .on callback invocation).  Each of the five handlers calls
queueEvent (mapEvent ...) exactly once. -/
def handleRawSignal (cwd : NPath) (k : RawSignalKind) (p : NPath)
    (st : Option Stats) : List FileSystemEvent :=
  match k with
  | .add => [mapEvent cwd .create p st]
  | .change => [mapEvent cwd .change p st]
  | .unlink => [mapEvent cwd .delete p none]
  | .addDir => [mapEvent cwd .directory p none]
  | .unlinkDir => [mapEvent cwd .directory p none]

/-- A user handler.  Invoking it either returns normally or raises (the
error payload is the thrown value). -/
abbrev Handler := FileSystemEvent → Except String Unit

/-- Whether the handler raises on a given event. -/
def throwsOn (h : Handler) (e : FileSystemEvent) : Bool :=
  match h e with
  | .ok _ => false
  | .error _ => true

/-! ## Subscription state machine

One subscription of FileWatcher.subscribe, for a fixed debounceMs > 0,
modelled as a state machine.  The state carries the mutable variables of
the subscription closure (pending, timer) plus observation logs:

* arms counts the setTimeout calls (timer arming actions);
* delivered is the sequence of handler invocations, in order;
* logged is the sequence of events whose handler invocation raised and
  was caught and logged by flush;
* flushBatches records, per flush, the entire batch delivered by it;
* closed records that watcher.close() has completed. -/

structure SubState where
  pending : List FileSystemEvent
  timer : Bool
  closed : Bool
  arms : Nat
  delivered : List FileSystemEvent
  logged : List FileSystemEvent
  flushBatches : List (List FileSystemEvent)
deriving DecidableEq

/-- The state of a fresh subscription. -/
def initSub : SubState :=
  { pending := [], timer := false, closed := false, arms := 0
    delivered := [], logged := [], flushBatches := [] }

/-- flush from subscribe: if the queue is empty, return at once (without
touching the timer); otherwise splice out the whole queue, invoke the
handler on every spliced event in order, catching and logging each raised
error, then clear the timer. -/
def flush (h : Handler) (s : SubState) : SubState :=
  if s.pending = [] then s
  else
    { s with
      delivered := s.delivered ++ s.pending
      logged := s.logged ++ s.pending.filter (throwsOn h)
      flushBatches := s.flushBatches ++ [s.pending]
      pending := []
      timer := false }

/-- The debounced branch of queueEvent: push the event onto the FIFO
queue and, when no timer is live, arm one (setTimeout). -/
def queueEventPush (s : SubState) (e : FileSystemEvent) : SubState :=
  { s with
    pending := s.pending ++ [e]
    timer := true
    arms := if s.timer then s.arms else s.arms + 1 }

/-- queueEvent from subscribe, for an arbitrary debounceMs.  When
debounceMs is not positive the handler is invoked directly, with no
try/catch: a raised error propagates to the caller (the underlying watch
primitive's emit).  Otherwise the event is queued as in queueEventPush. -/
def queueEvent (debounceMs : Int) (h : Handler) (s : SubState)
    (e : FileSystemEvent) : Except String SubState :=
  if debounceMs ≤ 0 then
    match h e with
    | .ok _ => .ok { s with delivered := s.delivered ++ [e] }
    | .error err => .error err
  else
    .ok (queueEventPush s e)

/-- The inputs a live subscription reacts to: a raw signal from the
underlying primitive, the debounce timer firing, and close(). -/
inductive SubEv where
  | raw (k : RawSignalKind) (p : NPath) (st : Option Stats)
  | timerFire
  | close
deriving DecidableEq

/-- One step of the subscription (debounceMs > 0).

* raw: the underlying primitive emits nothing once closed (chokidar's
  closed gate suppresses late signals after close() resolves, per the
  collaborator contract of spec section 6); while open, the mapped
  canonical event is queued by queueEvent's debounced branch.
* timerFire: a timeout callback only exists while the timer is armed;
  it runs flush.
* close: close() runs flush synchronously, then awaits watcher.close(),
  after which the subscription is torn down. -/
def subStep (cwd : NPath) (h : Handler) (s : SubState) : SubEv → SubState
  | .raw k p st =>
    if s.closed then s
    else (handleRawSignal cwd k p st).foldl queueEventPush s
  | .timerFire => if s.timer then flush h s else s
  | .close => { flush h s with closed := true }

/-- Run a subscription over a trace of inputs from the fresh state. -/
def subRun (cwd : NPath) (h : Handler) (t : List SubEv) : SubState :=
  t.foldl (subStep cwd h) initSub

/-- The canonical events generated by the raw signals of a trace, in
arrival order. -/
def arrivals (cwd : NPath) (t : List SubEv) : List FileSystemEvent :=
  (t.map (fun ev =>
    match ev with
    | .raw k p st => handleRawSignal cwd k p st
    | _ => [])).flatten

/-! ## Invariants of the subscription machine -/

/-- The raw wiring always produces exactly one canonical event, of the
mapped type, with the forwarded stats. -/
theorem handleRawSignal_single (cwd : NPath) (k : RawSignalKind) (p : NPath)
    (st : Option Stats) :
    handleRawSignal cwd k p st = [mapEvent cwd (rawEventType k) p (rawStats k st)] := by
  cases k <;> rfl

/-- A timer is live exactly while the queue is non-empty. -/
def TimerInv (s : SubState) : Prop := s.timer = true ↔ s.pending ≠ []

theorem timerInv_init : TimerInv initSub := by
  simp [TimerInv, initSub]

theorem timerInv_flush (h : Handler) (s : SubState) (hs : TimerInv s) :
    TimerInv (flush h s) := by
  unfold flush
  by_cases hp : s.pending = []
  · rw [if_pos hp]; exact hs
  · simp [hp, TimerInv]

theorem timerInv_step (cwd : NPath) (h : Handler) (s : SubState) (e : SubEv)
    (hs : TimerInv s) : TimerInv (subStep cwd h s e) := by
  cases e with
  | raw k p st =>
    by_cases hc : s.closed
    · simpa [subStep, hc] using hs
    · simp only [subStep, hc, if_neg, handleRawSignal_single, List.foldl_cons,
        List.foldl_nil, Bool.false_eq_true, if_false]
      simp [TimerInv, queueEventPush]
  | timerFire =>
    by_cases ht : s.timer = true
    · simpa [subStep, ht] using timerInv_flush h s hs
    · simpa [subStep, ht] using hs
  | close =>
    have := timerInv_flush h s hs
    simpa [subStep, TimerInv] using this

theorem timerInv_runFrom (cwd : NPath) (h : Handler) (t : List SubEv) :
    ∀ s : SubState, TimerInv s → TimerInv (t.foldl (subStep cwd h) s) := by
  induction t with
  | nil => intro s hs; simpa using hs
  | cons e t ih =>
    intro s hs
    simpa [List.foldl_cons] using ih _ (timerInv_step cwd h s e hs)

theorem timerInv_run (cwd : NPath) (h : Handler) (t : List SubEv) :
    TimerInv (subRun cwd h t) :=
  timerInv_runFrom cwd h t initSub timerInv_init

/-- Along a trace with no close, the subscription stays open and the
handler invocations so far plus the still-queued events are exactly the
arrived canonical events, in arrival order: every raw event is appended
to the FIFO queue and every flush delivers a prefix of it, nothing is
dropped, duplicated or reordered. -/
theorem delivered_pending_runFrom (cwd : NPath) (h : Handler) (t : List SubEv)
    (hnc : SubEv.close ∉ t) :
    ∀ s : SubState, s.closed = false →
      (t.foldl (subStep cwd h) s).closed = false ∧
      (t.foldl (subStep cwd h) s).delivered ++ (t.foldl (subStep cwd h) s).pending
        = s.delivered ++ s.pending ++ arrivals cwd t := by
  induction t with
  | nil => intro s hs; simp [arrivals, hs]
  | cons e t ih =>
    intro s hs
    have hnc' : SubEv.close ∉ t := fun hm => hnc (List.mem_cons_of_mem _ hm)
    have hstep : (subStep cwd h s e).closed = false ∧
        (subStep cwd h s e).delivered ++ (subStep cwd h s e).pending
          = s.delivered ++ s.pending ++ (match e with
              | .raw k p st => handleRawSignal cwd k p st
              | _ => []) := by
      cases e with
      | raw k p st =>
        simp only [subStep, hs, Bool.false_eq_true, if_false,
          handleRawSignal_single, List.foldl_cons, List.foldl_nil]
        simp [queueEventPush, hs]
      | timerFire =>
        by_cases ht : s.timer = true <;>
          simp [subStep, ht, flush, hs] <;>
          by_cases hp : s.pending = [] <;> simp [hp, hs]
      | close => exact absurd (List.mem_cons_self _ _) hnc
    obtain ⟨hc1, hd1⟩ := hstep
    obtain ⟨hc2, hd2⟩ := ih hnc' (subStep cwd h s e) hc1
    refine ⟨by simpa [List.foldl_cons] using hc2, ?_⟩
    rw [List.foldl_cons, hd2, hd1]
    cases e with
    | raw k p st => simp [arrivals]
    | timerFire => simp [arrivals]
    | close => exact absurd (List.mem_cons_self _ _) hnc

/-- The delivered log is exactly the concatenation of the flush batches:
every delivery happens inside some flush, and each flush delivers its
whole batch. -/
theorem flushBatches_runFrom (cwd : NPath) (h : Handler) (t : List SubEv) :
    ∀ s : SubState, s.flushBatches.flatten = s.delivered →
      (t.foldl (subStep cwd h) s).flushBatches.flatten
        = (t.foldl (subStep cwd h) s).delivered := by
  induction t with
  | nil => intro s hs; simpa using hs
  | cons e t ih =>
    intro s hs
    rw [List.foldl_cons]
    refine ih _ ?_
    cases e with
    | raw k p st =>
      by_cases hc : s.closed <;>
        simp [subStep, hc, handleRawSignal_single, queueEventPush, hs]
    | timerFire =>
      by_cases ht : s.timer = true <;> simp [subStep, ht, flush, hs] <;>
        by_cases hp : s.pending = [] <;> simp [hp, hs]
    | close =>
      by_cases hp : s.pending = [] <;> simp [subStep, flush, hp, hs]

/-- The error log is exactly the delivered events on which the handler
raises: every raised error is caught and logged, once per event. -/
theorem logged_runFrom (cwd : NPath) (h : Handler) (t : List SubEv) :
    ∀ s : SubState, s.logged = s.delivered.filter (throwsOn h) →
      (t.foldl (subStep cwd h) s).logged
        = (t.foldl (subStep cwd h) s).delivered.filter (throwsOn h) := by
  induction t with
  | nil => intro s hs; simpa using hs
  | cons e t ih =>
    intro s hs
    rw [List.foldl_cons]
    refine ih _ ?_
    cases e with
    | raw k p st =>
      by_cases hc : s.closed <;>
        simp [subStep, hc, handleRawSignal_single, queueEventPush, hs]
    | timerFire =>
      by_cases ht : s.timer = true <;> simp [subStep, ht, flush, hs] <;>
        by_cases hp : s.pending = [] <;> simp [hp, hs]
    | close =>
      by_cases hp : s.pending = [] <;> simp [subStep, flush, hp, hs]

/-- Once the subscription is closed with an empty queue and no live
timer, every further input leaves the state untouched: the primitive
emits nothing, no timeout exists, and a second close flushes nothing. -/
theorem closed_stable_step (cwd : NPath) (h : Handler) (s : SubState)
    (hc : s.closed = true) (hp : s.pending = []) (ht : s.timer = false)
    (e : SubEv) : subStep cwd h s e = s := by
  cases e with
  | raw k p st => simp [subStep, hc]
  | timerFire => simp [subStep, ht]
  | close =>
    cases s
    simp_all [subStep, flush]

theorem closed_stable_run (cwd : NPath) (h : Handler) (t : List SubEv) :
    ∀ s : SubState, s.closed = true → s.pending = [] → s.timer = false →
      t.foldl (subStep cwd h) s = s := by
  induction t with
  | nil => intro s _ _ _; rfl
  | cons e t ih =>
    intro s hc hp ht
    rw [List.foldl_cons, closed_stable_step cwd h s hc hp ht e,
      ih s hc hp ht]

/-- The state core that does not depend on which events make the handler
raise: everything except the error log. -/
def SameCore (a b : SubState) : Prop :=
  a.pending = b.pending ∧ a.timer = b.timer ∧ a.closed = b.closed ∧
  a.arms = b.arms ∧ a.delivered = b.delivered ∧ a.flushBatches = b.flushBatches

/-- One step preserves core agreement between runs under two different
handlers: a raising handler changes only the error log, never which
events are queued, delivered or flushed. -/
theorem sameCore_step (cwd : NPath) (h₁ h₂ : Handler) (e : SubEv)
    (a b : SubState) (hab : SameCore a b) :
    SameCore (subStep cwd h₁ a e) (subStep cwd h₂ b e) := by
  cases a with
  | mk pa ta ca aa da la fa =>
    cases b with
    | mk pb tb cb ab db lb fb =>
      obtain ⟨hp, ht, hc, ha, hd, hb⟩ := hab
      simp only at hp ht hc ha hd hb
      subst hp ht hc ha hd hb
      cases e with
      | raw k p st =>
        by_cases hcl : ca = true <;>
          simp [subStep, handleRawSignal_single, queueEventPush, SameCore, hcl]
      | timerFire =>
        by_cases htm : ta = true <;> by_cases hpe : pa = [] <;>
          simp [subStep, flush, SameCore, htm, hpe]
      | close =>
        by_cases hpe : pa = [] <;>
          simp [subStep, flush, SameCore, hpe]

theorem sameCore_runFrom (cwd : NPath) (h₁ h₂ : Handler) (t : List SubEv) :
    ∀ a b : SubState, SameCore a b →
      SameCore (t.foldl (subStep cwd h₁) a) (t.foldl (subStep cwd h₂) b) := by
  induction t with
  | nil => intro a b hab; simpa using hab
  | cons e t ih =>
    intro a b hab
    simpa [List.foldl_cons] using ih _ _ (sameCore_step cwd h₁ h₂ e a b hab)

/-! ## Claim theorems for the file watcher -/

/-- C1.  For a subscription with positive debounce, along any trace of
raw signals and timer fires (no close): the handler invocations so far
followed by the still-queued events are exactly the canonical events of
the raw signals, in arrival order, so every raw event is appended to the
FIFO queue and each queued event is delivered exactly once, in order; a
timer is live exactly while the queue is non-empty, and a new timer is
armed by an incoming event exactly when the queue was empty (queue
transitions from empty to non-empty); everything ever delivered was
delivered inside some flush, each flush delivering its entire batch; and
when the timer fires it delivers the whole queue in one flush, after
which the queue is empty and the timer is cleared.  No per-path
coalescing happens anywhere: the queue and the flush keep every event. -/
theorem debounce_window_fifo (cwd : NPath) (h : Handler) (t t' : List SubEv)
    (e : FileSystemEvent)
    (hnc : SubEv.close ∉ t) (hnc' : SubEv.close ∉ t')
    (htimer : (subRun cwd h t).timer = true) :
    (subRun cwd h t').delivered ++ (subRun cwd h t').pending = arrivals cwd t' ∧
    ((subRun cwd h t').timer = true ↔ (subRun cwd h t').pending ≠ []) ∧
    (subRun cwd h t').flushBatches.flatten = (subRun cwd h t').delivered ∧
    (queueEventPush (subRun cwd h t') e).arms
      = (subRun cwd h t').arms
        + (if (subRun cwd h t').pending = [] then 1 else 0) ∧
    subStep cwd h (subRun cwd h t) SubEv.timerFire
      = { subRun cwd h t with
          delivered := (subRun cwd h t).delivered ++ (subRun cwd h t).pending
          logged := (subRun cwd h t).logged
            ++ (subRun cwd h t).pending.filter (throwsOn h)
          flushBatches := (subRun cwd h t).flushBatches
            ++ [(subRun cwd h t).pending]
          pending := []
          timer := false } := by
  have inv' := timerInv_run cwd h t'
  have inv := timerInv_run cwd h t
  refine ⟨?_, inv', ?_, ?_, ?_⟩
  · have := delivered_pending_runFrom cwd h t' hnc' initSub rfl
    simpa [subRun, initSub] using this.2
  · exact flushBatches_runFrom cwd h t' initSub rfl
  · by_cases hp : (subRun cwd h t').pending = []
    · have htf : (subRun cwd h t').timer = false := by
        rcases Bool.eq_false_or_eq_true (subRun cwd h t').timer with hb | hb
        · exact absurd hp (inv'.mp hb)
        · exact hb
      simp [queueEventPush, htf, hp]
    · have htt : (subRun cwd h t').timer = true := inv'.mpr hp
      simp [queueEventPush, htt, hp]
  · have hp : (subRun cwd h t).pending ≠ [] := inv.mp htimer
    rw [subStep]
    simp only [htimer, if_true]
    unfold flush
    simp only [hp, if_neg, if_false]

/-- C2.  Appending close() to any trace flushes the whole queue
synchronously through the handler (all currently queued events are
delivered, in order, before the watch handle is released), leaves the
queue empty and the timer cleared, marks the underlying handle closed,
is safe when nothing was ever queued (the flush is a no-op then), and
afterwards the subscription state never changes again: no event is ever
delivered after close() resolves, even if raw signals keep arriving. -/
theorem close_flushes_then_silent (cwd : NPath) (h : Handler)
    (t1 t2 : List SubEv) :
    (subRun cwd h (t1 ++ [SubEv.close])).delivered
      = (subRun cwd h t1).delivered ++ (subRun cwd h t1).pending ∧
    (subRun cwd h (t1 ++ [SubEv.close])).pending = [] ∧
    (subRun cwd h (t1 ++ [SubEv.close])).timer = false ∧
    (subRun cwd h (t1 ++ [SubEv.close])).closed = true ∧
    subRun cwd h (t1 ++ SubEv.close :: t2)
      = subRun cwd h (t1 ++ [SubEv.close]) := by
  have inv := timerInv_run cwd h t1
  have hstep : subRun cwd h (t1 ++ [SubEv.close])
      = subStep cwd h (subRun cwd h t1) SubEv.close := by
    simp [subRun, List.foldl_append]
  have htf : (subRun cwd h t1).pending = [] → (subRun cwd h t1).timer = false := by
    intro hp
    rcases Bool.eq_false_or_eq_true (subRun cwd h t1).timer with hb | hb
    · exact absurd hp (inv.mp hb)
    · exact hb
  refine ⟨?_, ?_, ?_, ?_, ?_⟩
  · rw [hstep, subStep]
    unfold flush
    by_cases hp : (subRun cwd h t1).pending = []
    · simp [hp]
    · simp [hp]
  · rw [hstep, subStep]
    unfold flush
    by_cases hp : (subRun cwd h t1).pending = [] <;> simp [hp]
  · rw [hstep, subStep]
    unfold flush
    by_cases hp : (subRun cwd h t1).pending = []
    · simp only [hp, if_true]
      exact htf hp
    · simp [hp]
  · rw [hstep, subStep]
  · have hc : (subRun cwd h (t1 ++ [SubEv.close])).closed = true := by
      rw [hstep, subStep]
    have hp2 : (subRun cwd h (t1 ++ [SubEv.close])).pending = [] := by
      rw [hstep, subStep]
      unfold flush
      by_cases hp : (subRun cwd h t1).pending = [] <;> simp [hp]
    have ht2 : (subRun cwd h (t1 ++ [SubEv.close])).timer = false := by
      rw [hstep, subStep]
      unfold flush
      by_cases hp : (subRun cwd h t1).pending = []
      · simp only [hp, if_true]
        exact htf hp
      · simp [hp]
    have : subRun cwd h (t1 ++ SubEv.close :: t2)
        = t2.foldl (subStep cwd h) (subRun cwd h (t1 ++ [SubEv.close])) := by
      simp [subRun, List.foldl_append]
    rw [this, closed_stable_run cwd h t2 _ hc hp2 ht2]

/-- C6 counterexample.  With debounceMs equal to zero the source invokes
the handler directly, outside any try/catch: a raising handler makes
queueEvent itself raise, so the error is not caught and logged but
propagates to the caller, the underlying watch primitive's emit. -/
theorem sync_delivery_uncaught_cex :
    queueEvent 0 (fun _ => .error "boom") initSub
      { type := .create, path := ⟨true, ["tmp", "file"]⟩
        relativePath := none, stats := none } = .error "boom" := by
  rfl

/-- C6 amended.  Handler errors raised during a debounced flush are
caught per event and logged and never disturb delivery: two runs under
handlers that raise on different events agree on everything except the
error log (same queue, same deliveries, same batches), and the error log
is exactly the delivered events whose handler invocation raised.  With a
positive debounce queueEvent never raises.  But when debounceMs is zero
the handler is invoked directly with no try/catch, so its error
propagates out of queueEvent to the underlying watch primitive. -/
theorem handler_errors_isolated (cwd : NPath) (h₁ h₂ : Handler)
    (t : List SubEv) (db db' : Int) (s : SubState) (e : FileSystemEvent)
    (err : String)
    (hdb : db ≤ 0) (herr : h₁ e = .error err) (hdb' : 0 < db') :
    SameCore (subRun cwd h₁ t) (subRun cwd h₂ t) ∧
    (subRun cwd h₁ t).logged
      = (subRun cwd h₁ t).delivered.filter (throwsOn h₁) ∧
    queueEvent db h₁ s e = .error err ∧
    queueEvent db' h₁ s e = .ok (queueEventPush s e) := by
  refine ⟨?_, ?_, ?_, ?_⟩
  · exact sameCore_runFrom cwd h₁ h₂ t initSub initSub
      ⟨rfl, rfl, rfl, rfl, rfl, rfl⟩
  · exact logged_runFrom cwd h₁ t initSub rfl
  · rw [queueEvent, if_pos hdb, herr]
  · rw [queueEvent, if_neg (by omega)]

/-- C7.  Every raw signal from the underlying primitive is mapped to
exactly one canonical event; assuming the cwd is absolute (the source
default is process.cwd()), that event's path is absolute, its
relativePath is exactly the cwd-relative form of that absolute path, its
stats is the payload forwarded for that signal kind, and its type follows
the mapping add to create, change to change, unlink to delete, addDir to
directory, unlinkDir to directory. -/
theorem raw_signal_normalization (cwd : NPath) (k : RawSignalKind)
    (p : NPath) (st : Option Stats) (e : FileSystemEvent)
    (hcwd : cwd.abs = true) (he : e ∈ handleRawSignal cwd k p st) :
    handleRawSignal cwd k p st
      = [mapEvent cwd (rawEventType k) p (rawStats k st)] ∧
    e.path.abs = true ∧
    e.relativePath = some (pathRelative cwd e.path) ∧
    e.type = rawEventType k ∧
    e.stats = rawStats k st ∧
    rawEventType .add = .create ∧ rawEventType .change = .change ∧
    rawEventType .unlink = .delete ∧ rawEventType .addDir = .directory ∧
    rawEventType .unlinkDir = .directory := by
  have hs := handleRawSignal_single cwd k p st
  rw [hs] at he
  have he' : e = mapEvent cwd (rawEventType k) p (rawStats k st) := by
    simpa using he
  subst he'
  refine ⟨hs, ?_, ?_, ?_, ?_, rfl, rfl, rfl, rfl, rfl⟩
  · by_cases hp : p.abs = true
    · simp [mapEvent, hp]
    · simp [mapEvent, hp, pathJoin, hcwd]
  · simp [mapEvent]
  · rfl
  · rfl

/-! ## Concrete sample data for the witnesses -/

/-- A sample absolute cwd. -/
def sampleCwd : NPath := ⟨true, ["home"]⟩

/-- A handler that never raises. -/
def okHandler : Handler := fun _ => .ok ()

/-- A handler that always raises. -/
def boomHandler : Handler := fun _ => .error "boom"

/-- A sample canonical event. -/
def sampleEvent : FileSystemEvent :=
  { type := .create, path := ⟨true, ["home", "x"]⟩
    relativePath := none, stats := none }

/-- A sample trace: two raw signals inside one debounce window. -/
def sampleTrace : List SubEv :=
  [SubEv.raw .add ⟨false, ["a"]⟩ (some 7),
   SubEv.raw .change ⟨false, ["a"]⟩ none]

/-- Witness for the C1 theorem at concrete inputs: a two-event window
with the timer armed. -/
theorem debounce_window_fifo_witness :
    SubEv.close ∉ sampleTrace ∧
    (subRun sampleCwd okHandler sampleTrace).timer = true ∧
    ((subRun sampleCwd okHandler sampleTrace).delivered
        ++ (subRun sampleCwd okHandler sampleTrace).pending
        = arrivals sampleCwd sampleTrace ∧
      ((subRun sampleCwd okHandler sampleTrace).timer = true
        ↔ (subRun sampleCwd okHandler sampleTrace).pending ≠ []) ∧
      (subRun sampleCwd okHandler sampleTrace).flushBatches.flatten
        = (subRun sampleCwd okHandler sampleTrace).delivered ∧
      (queueEventPush (subRun sampleCwd okHandler sampleTrace) sampleEvent).arms
        = (subRun sampleCwd okHandler sampleTrace).arms
          + (if (subRun sampleCwd okHandler sampleTrace).pending = []
             then 1 else 0) ∧
      subStep sampleCwd okHandler (subRun sampleCwd okHandler sampleTrace)
          SubEv.timerFire
        = { subRun sampleCwd okHandler sampleTrace with
            delivered := (subRun sampleCwd okHandler sampleTrace).delivered
              ++ (subRun sampleCwd okHandler sampleTrace).pending
            logged := (subRun sampleCwd okHandler sampleTrace).logged
              ++ (subRun sampleCwd okHandler sampleTrace).pending.filter
                  (throwsOn okHandler)
            flushBatches := (subRun sampleCwd okHandler sampleTrace).flushBatches
              ++ [(subRun sampleCwd okHandler sampleTrace).pending]
            pending := []
            timer := false }) :=
  ⟨by decide, by rfl,
    debounce_window_fifo sampleCwd okHandler sampleTrace sampleTrace
      sampleEvent (by decide) (by decide) (by rfl)⟩

/-- Witness for the C6 amended theorem at concrete inputs. -/
theorem handler_errors_isolated_witness :
    (0 : Int) ≤ 0 ∧ boomHandler sampleEvent = .error "boom" ∧ (0 : Int) < 1 ∧
    (SameCore (subRun sampleCwd boomHandler sampleTrace)
        (subRun sampleCwd okHandler sampleTrace) ∧
      (subRun sampleCwd boomHandler sampleTrace).logged
        = (subRun sampleCwd boomHandler sampleTrace).delivered.filter
            (throwsOn boomHandler) ∧
      queueEvent 0 boomHandler initSub sampleEvent = .error "boom" ∧
      queueEvent 1 boomHandler initSub sampleEvent
        = .ok (queueEventPush initSub sampleEvent)) :=
  ⟨by decide, by rfl, by decide,
    handler_errors_isolated sampleCwd boomHandler okHandler sampleTrace 0 1
      initSub sampleEvent "boom" (by decide) (by rfl) (by decide)⟩

/-- Witness for the C7 theorem at a concrete raw add signal. -/
theorem raw_signal_normalization_witness :
    sampleCwd.abs = true ∧
    mapEvent sampleCwd .create ⟨false, ["a"]⟩ (some 7)
      ∈ handleRawSignal sampleCwd .add ⟨false, ["a"]⟩ (some 7) ∧
    (handleRawSignal sampleCwd .add ⟨false, ["a"]⟩ (some 7)
        = [mapEvent sampleCwd (rawEventType .add) ⟨false, ["a"]⟩
            (rawStats .add (some 7))] ∧
      (mapEvent sampleCwd .create ⟨false, ["a"]⟩ (some 7)).path.abs = true ∧
      (mapEvent sampleCwd .create ⟨false, ["a"]⟩ (some 7)).relativePath
        = some (pathRelative sampleCwd
            (mapEvent sampleCwd .create ⟨false, ["a"]⟩ (some 7)).path) ∧
      (mapEvent sampleCwd .create ⟨false, ["a"]⟩ (some 7)).type
        = rawEventType .add ∧
      (mapEvent sampleCwd .create ⟨false, ["a"]⟩ (some 7)).stats
        = rawStats .add (some 7) ∧
      rawEventType .add = .create ∧ rawEventType .change = .change ∧
      rawEventType .unlink = .delete ∧ rawEventType .addDir = .directory ∧
      rawEventType .unlinkDir = .directory) :=
  ⟨by rfl, by decide,
    raw_signal_normalization sampleCwd .add ⟨false, ["a"]⟩ (some 7)
      (mapEvent sampleCwd .create ⟨false, ["a"]⟩ (some 7))
      (by rfl) (by decide)⟩

end FileWatcher

namespace ProcessManager

/-! ## Process manager data model (src/modules/processManager/index.ts)

JavaScript strings are modelled as lists of characters so that the
case-insensitive substring matching of listProcesses can be expressed
character by character. -/

/-- A JavaScript string. -/
abbrev Str := List Char

/-- String.prototype.toLowerCase. -/
def lowerStr (s : Str) : Str := s.map Char.toLower

/-- String.prototype.includes: contiguous substring containment. -/
def strIncludes (s sub : Str) : Bool :=
  match s with
  | [] => sub.isEmpty
  | _ :: t => sub.isPrefixOf s || strIncludes t sub

/-- A raw descriptor as returned by the process-table collaborator
(ps-list): pid, name and ppid always present, the rest platform
dependent.  The source additionally reads optional username and uid. -/
structure ProcessDescriptor where
  pid : Nat
  name : Str
  cmd : Option Str
  ppid : Nat
  cpu : Option Rat
  memory : Option Nat
  username : Option Str
  uid : Option Nat
deriving DecidableEq

/-- ProcessInfo from the source: the normalized snapshot shape. -/
structure ProcessInfo where
  pid : Nat
  name : Str
  cmd : Option Str
  ppid : Option Nat
  cpuPercent : Option Rat
  memoryBytes : Option Nat
  binaryPath : Option Str
  user : Option Str
deriving DecidableEq

/-- ProcessFilter from the source. -/
structure ProcessFilter where
  pid : Option Nat
  nameIncludes : Option Str
  user : Option Str
  binaryPathIncludes : Option Str
deriving DecidableEq

/-- Number.prototype.toString for a uid. -/
def natToStr (n : Nat) : Str := (toString n).data

/-- The normalization map of listProcesses: binaryPath is a copy of cmd,
and user is username when present, else the uid rendered as a string
(the nullish coalescing proc.username ?? proc.uid?.toString()). -/
def normalizeDescriptor (proc : ProcessDescriptor) : ProcessInfo :=
  { pid := proc.pid
    name := proc.name
    cmd := proc.cmd
    ppid := some proc.ppid
    cpuPercent := proc.cpu
    memoryBytes := proc.memory
    binaryPath := proc.cmd
    user := match proc.username with
            | some u => some u
            | none => proc.uid.map natToStr }

/-- The pid clause of the source predicate:
if (filter.pid && proc.pid !== filter.pid) return false.
A JavaScript number is truthy when non-zero, so a given pid of 0 imposes
no constraint. -/
def pidClause (fp : Option Nat) (proc : ProcessInfo) : Bool :=
  match fp with
  | none => true
  | some p => decide (p = 0) || decide (proc.pid = p)

/-- The name clause of the source predicate: a given non-empty
nameIncludes requires a case-insensitive substring match on name; the
empty string is falsy and imposes no constraint. -/
def nameClause (fn : Option Str) (proc : ProcessInfo) : Bool :=
  match fn with
  | none => true
  | some s => decide (s = []) || strIncludes (lowerStr proc.name) (lowerStr s)

/-- The user clause of the source predicate:
if (filter.user && proc.user !== filter.user) return false.
The empty string is falsy and imposes no constraint. -/
def userClause (fu : Option Str) (proc : ProcessInfo) : Bool :=
  match fu with
  | none => true
  | some u => decide (u = []) || decide (proc.user = some u)

/-- The binary-path clause of the source predicate: a given non-empty
binaryPathIncludes requires a case-insensitive substring match on
proc.cmd with a missing cmd read as the empty string. -/
def binClause (fb : Option Str) (proc : ProcessInfo) : Bool :=
  match fb with
  | none => true
  | some b =>
    decide (b = []) || strIncludes (lowerStr (proc.cmd.getD [])) (lowerStr b)

/-- The filter predicate of listProcesses: the conjunction of the four
early-return clauses of the source. -/
def matchesFilter (f : ProcessFilter) (proc : ProcessInfo) : Bool :=
  pidClause f.pid proc && nameClause f.nameIncludes proc &&
    userClause f.user proc && binClause f.binaryPathIncludes proc

/-- listProcesses: normalize the collaborator's full table, then return
it unfiltered when no filter is given, else keep the entries satisfying
the filter predicate. -/
def listProcesses (table : List ProcessDescriptor)
    (filter : Option ProcessFilter) : List ProcessInfo :=
  let normalized := table.map normalizeDescriptor
  match filter with
  | none => normalized
  | some f => normalized.filter (matchesFilter f)

/-! ## The predicate the spec describes, and the truthiness correction -/

/-- The pid predicate as the spec words it: a given pid constrains by
equality, unconditionally. -/
def specPidClause (fp : Option Nat) (proc : ProcessInfo) : Bool :=
  match fp with
  | none => true
  | some p => decide (proc.pid = p)

/-- The name predicate as the spec words it. -/
def specNameClause (fn : Option Str) (proc : ProcessInfo) : Bool :=
  match fn with
  | none => true
  | some s => strIncludes (lowerStr proc.name) (lowerStr s)

/-- The user predicate as the spec words it: exact equality on user. -/
def specUserClause (fu : Option Str) (proc : ProcessInfo) : Bool :=
  match fu with
  | none => true
  | some u => decide (proc.user = some u)

/-- The binary-path predicate as the spec words it. -/
def specBinClause (fb : Option Str) (proc : ProcessInfo) : Bool :=
  match fb with
  | none => true
  | some b => strIncludes (lowerStr (proc.cmd.getD [])) (lowerStr b)

/-- The AND of the four spec predicates. -/
def specFilterPred (f : ProcessFilter) (proc : ProcessInfo) : Bool :=
  specPidClause f.pid proc && specNameClause f.nameIncludes proc &&
    specUserClause f.user proc && specBinClause f.binaryPathIncludes proc

/-- Drop a given pid of zero: zero is falsy in the source's check. -/
def truthyPid : Option Nat → Option Nat
  | some p => if p = 0 then none else some p
  | none => none

/-- Drop a given empty string: the empty string is falsy in the source's
checks. -/
def truthyStr : Option Str → Option Str
  | some s => if s = [] then none else some s
  | none => none

/-- Restrict a filter to its truthy fields. -/
def truthify (f : ProcessFilter) : ProcessFilter :=
  { pid := truthyPid f.pid
    nameIncludes := truthyStr f.nameIncludes
    user := truthyStr f.user
    binaryPathIncludes := truthyStr f.binaryPathIncludes }

theorem pidClause_eq (fp : Option Nat) (proc : ProcessInfo) :
    pidClause fp proc = specPidClause (truthyPid fp) proc := by
  cases fp with
  | none => rfl
  | some p =>
    by_cases h : p = 0 <;>
      simp [pidClause, specPidClause, truthyPid, h]

theorem nameClause_eq (fn : Option Str) (proc : ProcessInfo) :
    nameClause fn proc = specNameClause (truthyStr fn) proc := by
  cases fn with
  | none => rfl
  | some s =>
    by_cases h : s = [] <;>
      simp [nameClause, specNameClause, truthyStr, h]

theorem userClause_eq (fu : Option Str) (proc : ProcessInfo) :
    userClause fu proc = specUserClause (truthyStr fu) proc := by
  cases fu with
  | none => rfl
  | some u =>
    by_cases h : u = [] <;>
      simp [userClause, specUserClause, truthyStr, h]

theorem binClause_eq (fb : Option Str) (proc : ProcessInfo) :
    binClause fb proc = specBinClause (truthyStr fb) proc := by
  cases fb with
  | none => rfl
  | some b =>
    by_cases h : b = [] <;>
      simp [binClause, specBinClause, truthyStr, h]

theorem matchesFilter_eq_spec_truthify (f : ProcessFilter)
    (proc : ProcessInfo) :
    matchesFilter f proc = specFilterPred (truthify f) proc := by
  unfold matchesFilter specFilterPred truthify
  rw [pidClause_eq, nameClause_eq, userClause_eq, binClause_eq]

/-- C3 counterexample.  A filter whose pid field is given as 0 imposes no
constraint in the source (JavaScript truthiness), so listProcesses keeps
an entry whose pid is 5 even though the claim's pid-equality predicate
rejects it; the spec predicate of the claim would return the empty
list. -/
theorem filter_pid_zero_cex :
    listProcesses
        [{ pid := 5, name := ['a'], cmd := none, ppid := 1, cpu := none
           memory := none, username := none, uid := none }]
        (some { pid := some 0, nameIncludes := none, user := none
                binaryPathIncludes := none })
      = [normalizeDescriptor
          { pid := 5, name := ['a'], cmd := none, ppid := 1, cpu := none
            memory := none, username := none, uid := none }] ∧
    (normalizeDescriptor
        { pid := 5, name := ['a'], cmd := none, ppid := 1, cpu := none
          memory := none, username := none, uid := none }).pid ≠ 0 ∧
    ((listProcesses
        [{ pid := 5, name := ['a'], cmd := none, ppid := 1, cpu := none
           memory := none, username := none, uid := none }]
        none).filter
      (specFilterPred
        { pid := some 0, nameIncludes := none, user := none
          binaryPathIncludes := none })) = [] := by
  refine ⟨by decide, by decide, by decide⟩

/-- C3 amended.  listProcesses applies exactly the AND of the spec's four
predicates, but only for the truthy filter fields: a given pid of 0 or a
given empty string imposes no constraint (for the two substring fields
the empty string matches everything anyway, so only pid 0 and an empty
user string actually diverge from the claim as stated).  Without a filter
the complete normalized table is returned, and every filtered result is
the corresponding selection of that complete table. -/
theorem listProcesses_filter_semantics (table : List ProcessDescriptor)
    (f : ProcessFilter) :
    listProcesses table (some f)
      = (listProcesses table none).filter (specFilterPred (truthify f)) ∧
    listProcesses table none = table.map normalizeDescriptor := by
  constructor
  · unfold listProcesses
    simp only
    rw [show matchesFilter f = specFilterPred (truthify f) from
      funext fun proc => matchesFilter_eq_spec_truthify f proc]
  · rfl

/-! ## Managed-process lifecycle machine (launchProcess / dispose)

launchProcess spawns a child, wires the optional cancellation signal,
adds the child to the managed set and installs a once exit handler that
removes it and detaches the cancellation listener.  dispose sends
SIGTERM to every still-managed child and clears the set.  The machine
below runs one ProcessManager over a trace of these events; children are
identified by a numeric id (each spawn creates a fresh child object, so
well-formed traces launch each id at most once). -/

/-- A signal value as passed to child.kill / process.kill. -/
inductive KillSig where
  | SIGTERM
  | SIGKILL
  | SIGINT
  | sigName (s : String)
  | sigNum (n : Nat)
deriving DecidableEq

/-- The events a ProcessManager reacts to: launchProcess (with whether an
abort signal was supplied and whether it was already aborted at call
time), the abort signal of a launch firing, a child's exit event, and
dispose(). -/
inductive PMEv where
  | launch (p : Nat) (hasSignal preAborted : Bool)
  | abortFire (p : Nat)
  | exit (p : Nat)
  | dispose
deriving DecidableEq

/-- The manager state.  managed is the managed set, listeners the set of
children with a live abort listener.  The remaining fields are
observation logs: killLog records every termination-signal send,
additions every insertion into the managed set, removals every deletion
from it (by the exit handler or by dispose's clear of still-present
children), exited the exit events seen, and waitResolved the children
whose wait() promise has resolved. -/
structure PMState where
  managed : List Nat
  listeners : List Nat
  killLog : List (Nat × KillSig)
  additions : List Nat
  removals : List Nat
  exited : List Nat
  waitResolved : List Nat
deriving DecidableEq

/-- A fresh ProcessManager. -/
def pmInit : PMState :=
  { managed := [], listeners := [], killLog := [], additions := []
    removals := [], exited := [], waitResolved := [] }

/-- One step of the manager.

* launch: spawn, then — as in the source — if a signal is supplied and
  already aborted, call abort() (child.kill with SIGTERM) immediately
  after spawn; otherwise attach a once abort listener (one abort closure
  exists per spawned child, so per child id the attachment is
  idempotent).  The child is added to the managed set (a JS Set: no
  duplicate insertion).
* abortFire: the once listener, if still attached, sends SIGTERM and is
  consumed.
* exit: the once exit handler removes the child from the managed set
  (logging a removal only when it was still present) and detaches the
  abort listener; the await of once(child, exit) inside wait() resolves.
* dispose: every still-managed child has not yet exited, hence has a
  null exitCode, so the source sends SIGTERM to each of them, and the
  set is cleared. -/
def pmStep (s : PMState) : PMEv → PMState
  | .launch p hasSignal preAborted =>
    let s1 := { s with
      managed := if p ∈ s.managed then s.managed else s.managed ++ [p]
      additions := s.additions ++ [p] }
    if hasSignal then
      if preAborted then
        { s1 with killLog := s1.killLog ++ [(p, KillSig.SIGTERM)] }
      else
        { s1 with listeners :=
            if p ∈ s1.listeners then s1.listeners else s1.listeners ++ [p] }
    else s1
  | .abortFire p =>
    if p ∈ s.listeners then
      { s with
        killLog := s.killLog ++ [(p, KillSig.SIGTERM)]
        listeners := s.listeners.erase p }
    else s
  | .exit p =>
    { s with
      managed := s.managed.erase p
      removals := s.removals ++ (if p ∈ s.managed then [p] else [])
      listeners := s.listeners.erase p
      exited := s.exited ++ [p]
      waitResolved := s.waitResolved ++ [p] }
  | .dispose =>
    { s with
      killLog := s.killLog ++ s.managed.map (fun p => (p, KillSig.SIGTERM))
      removals := s.removals ++ s.managed
      managed := [] }

/-- Run a manager over a trace of events. -/
def pmRun (t : List PMEv) : PMState := t.foldl pmStep pmInit

/-- The ids launched by a trace, in order. -/
def launchPids (t : List PMEv) : List Nat :=
  t.filterMap (fun ev =>
    match ev with
    | .launch p _ _ => some p
    | _ => none)

/-! ## Invariants of the manager machine -/

theorem launchPids_append (t1 t2 : List PMEv) :
    launchPids (t1 ++ t2) = launchPids t1 ++ launchPids t2 := by
  simp [launchPids]

/-- Every step preserves membership of the waitResolved log: a resolved
wait() never becomes unresolved. -/
theorem launchPids_cons (e : PMEv) (t : List PMEv) :
    launchPids (e :: t)
      = (match e with | .launch p _ _ => [p] | _ => []) ++ launchPids t := by
  cases e <;> simp [launchPids]

theorem pm_waitResolved_mono_step (p : Nat) (s : PMState) (e : PMEv)
    (hp : p ∈ s.waitResolved) : p ∈ (pmStep s e).waitResolved := by
  cases e with
  | launch q hsig pa => cases hsig <;> cases pa <;> simp [pmStep, hp]
  | abortFire q => by_cases hm : q ∈ s.listeners <;> simp [pmStep, hm, hp]
  | exit q => simp [pmStep, hp]
  | dispose => simp [pmStep, hp]

theorem pm_waitResolved_mono_run (p : Nat) (t : List PMEv) :
    ∀ s : PMState, p ∈ s.waitResolved → p ∈ (t.foldl pmStep s).waitResolved := by
  induction t with
  | nil => intro s hp; simpa using hp
  | cons e t ih =>
    intro s hp
    rw [List.foldl_cons]
    exact ih _ (pm_waitResolved_mono_step p s e hp)

/-- If a child exits somewhere in a trace, its wait() resolves by the end
of the trace. -/
theorem pm_exit_waitResolved (p : Nat) (t : List PMEv) :
    ∀ s : PMState, PMEv.exit p ∈ t →
      p ∈ (t.foldl pmStep s).waitResolved := by
  induction t with
  | nil => intro s hs; simp at hs
  | cons e t ih =>
    intro s hs
    rw [List.foldl_cons]
    rcases List.mem_cons.mp hs with he | ht
    · subst he
      exact pm_waitResolved_mono_run p t _ (by simp [pmStep])
    · exact ih _ ht

/-- The additions log is exactly the launched ids: the managed set gains
one entry per launchProcess call. -/
theorem pm_additions (t : List PMEv) :
    ∀ s : PMState, (t.foldl pmStep s).additions = s.additions ++ launchPids t := by
  induction t with
  | nil => intro s; simp [launchPids]
  | cons e t ih =>
    intro s
    rw [List.foldl_cons, ih, launchPids_cons]
    cases e with
    | launch p hsig pa => cases hsig <;> cases pa <;> simp [pmStep]
    | abortFire p => by_cases hm : p ∈ s.listeners <;> simp [pmStep, hm]
    | exit p => simp [pmStep]
    | dispose => simp [pmStep]

/-- The managed set never holds duplicates (JS Set semantics). -/
theorem pm_managed_nodup (t : List PMEv) :
    ∀ s : PMState, s.managed.Nodup → (t.foldl pmStep s).managed.Nodup := by
  induction t with
  | nil => intro s hs; simpa using hs
  | cons e t ih =>
    intro s hs
    rw [List.foldl_cons]
    refine ih _ ?_
    cases e with
    | launch p hsig pa =>
      have hl : (if p ∈ s.managed then s.managed else s.managed ++ [p]).Nodup := by
        split_ifs with hmem
        · exact hs
        · simpa [List.nodup_append, hmem] using hs
      cases hsig <;> cases pa <;> exact hl
    | abortFire p =>
      by_cases hmem : p ∈ s.listeners <;> simpa [pmStep, hmem] using hs
    | exit p => simpa [pmStep] using hs.erase p
    | dispose => simp [pmStep]

/-- The listener set never holds duplicates. -/
theorem pm_listeners_nodup (t : List PMEv) :
    ∀ s : PMState, s.listeners.Nodup → (t.foldl pmStep s).listeners.Nodup := by
  induction t with
  | nil => intro s hs; simpa using hs
  | cons e t ih =>
    intro s hs
    rw [List.foldl_cons]
    refine ih _ ?_
    cases e with
    | launch p hsig pa =>
      have hl : (if p ∈ s.listeners then s.listeners else s.listeners ++ [p]).Nodup := by
        split_ifs with hmem
        · exact hs
        · simpa [List.nodup_append, hmem] using hs
      cases hsig <;> cases pa <;> first | exact hl | exact hs
    | abortFire p =>
      by_cases hmem : p ∈ s.listeners
      · simpa [pmStep, hmem] using hs.erase p
      · simpa [pmStep, hmem] using hs
    | exit p => simpa [pmStep] using hs.erase p
    | dispose => simpa [pmStep] using hs

/-- Counting invariant: removals of an id never outnumber its additions,
counting its current membership of the managed set in between.  An entry
leaving the set is logged as removed exactly at the step that removes
it. -/
theorem pm_count_inv (p : Nat) (t : List PMEv) :
    ∀ s : PMState,
      s.removals.count p + s.managed.count p ≤ s.additions.count p →
      (t.foldl pmStep s).removals.count p + (t.foldl pmStep s).managed.count p
        ≤ (t.foldl pmStep s).additions.count p := by
  induction t with
  | nil => intro s hs; simpa using hs
  | cons e t ih =>
    intro s hs
    rw [List.foldl_cons]
    refine ih _ ?_
    cases e with
    | launch q hsig pa =>
      have hone : List.count p [q] = if q = p then 1 else 0 :=
        List.count_singleton' p q
      have hman : (if q ∈ s.managed then s.managed else s.managed ++ [q]).count p
          ≤ s.managed.count p + (if q = p then 1 else 0) := by
        by_cases hmem : q ∈ s.managed
        · simp [hmem]
        · simp [hmem, List.count_append, hone]
      cases hsig <;> cases pa <;>
        simp [pmStep, List.count_append, hone] <;> omega
    | abortFire q =>
      by_cases hmem : q ∈ s.listeners <;> simpa [pmStep, hmem] using hs
    | exit q =>
      simp only [pmStep]
      by_cases hmem : q ∈ s.managed
      · by_cases hqp : q = p
        · subst hqp
          have h2 : 0 < s.managed.count q := List.count_pos_iff_mem.mpr hmem
          have h1 : (s.managed.erase q).count q = s.managed.count q - 1 :=
            List.count_erase_self q s.managed
          simp only [hmem, if_pos, List.count_append, h1, List.count_singleton,
            beq_self_eq_true, if_true]
          omega
        · have hpq : p ≠ q := fun h => hqp h.symm
          have h1 : (s.managed.erase q).count p = s.managed.count p :=
            List.count_erase_of_ne hpq s.managed
          have h2 : ([q] : List Nat).count p = 0 := by
            rw [List.count_singleton']
            simp [hqp]
          simp only [hmem, if_pos, List.count_append, h1, h2]
          omega
      · have h1 : s.managed.erase q = s.managed := List.erase_of_not_mem hmem
        simp only [hmem, if_neg, if_false, List.append_nil, h1]
        simpa using hs
    | dispose =>
      simp only [pmStep, List.count_append, List.count_nil]
      omega

/-- Once an id is out of the managed set and is never launched again, it
stays out, and no further removal of it is ever logged. -/
theorem pm_stay_out (p : Nat) (t : List PMEv) :
    ∀ s : PMState, p ∉ s.managed → p ∉ launchPids t →
      p ∉ (t.foldl pmStep s).managed ∧
      (t.foldl pmStep s).removals.count p = s.removals.count p := by
  induction t with
  | nil => intro s h1 _; exact ⟨h1, rfl⟩
  | cons e t ih =>
    intro s h1 h2
    rw [List.foldl_cons]
    rw [launchPids_cons] at h2
    have h2t : p ∉ launchPids t := fun hm =>
      h2 (List.mem_append.mpr (Or.inr hm))
    have hstep : p ∉ (pmStep s e).managed ∧
        (pmStep s e).removals.count p = s.removals.count p := by
      cases e with
      | launch q hsig pa =>
        have hqp : q ≠ p := by
          intro h
          exact h2 (List.mem_append.mpr (Or.inl (by simp [h])))
        have hman : p ∉ (if q ∈ s.managed then s.managed else s.managed ++ [q]) := by
          split_ifs with hmem
          · exact h1
          · intro hm
            rcases List.mem_append.mp hm with h | h
            · exact h1 h
            · simp at h
              exact hqp h.symm
        cases hsig <;> cases pa <;> exact ⟨hman, rfl⟩
      | abortFire q =>
        by_cases hmem : q ∈ s.listeners <;> simp [pmStep, hmem, h1]
      | exit q =>
        constructor
        · simp only [pmStep]
          intro hm
          exact h1 (List.mem_of_mem_erase hm)
        · simp only [pmStep, List.count_append]
          split_ifs with hmem
          · have hqp : ¬q = p := fun h => h1 (h ▸ hmem)
            rw [List.count_singleton']
            simp [hqp]
          · simp
      | dispose =>
        refine ⟨by simp [pmStep], ?_⟩
        simp only [pmStep, List.count_append]
        have hz : s.managed.count p = 0 := List.count_eq_zero.mpr h1
        omega
    exact (ih _ hstep.1 h2t).imp id (fun h => h.trans hstep.2)

/-- Every member of the managed set satisfies any property enjoyed by
the initially-managed ids and by every launched id: the managed set only
ever contains spawned children. -/
theorem pm_managed_sub (P : Nat → Prop) (t : List PMEv) :
    ∀ s : PMState, (∀ q ∈ s.managed, P q) → (∀ q ∈ launchPids t, P q) →
      ∀ q ∈ (t.foldl pmStep s).managed, P q := by
  induction t with
  | nil => intro s h1 _; simpa using h1
  | cons e t ih =>
    intro s h1 h2
    rw [List.foldl_cons]
    have h2t : ∀ q ∈ launchPids t, P q := by
      intro q hq
      apply h2
      rw [launchPids_cons]
      exact List.mem_append.mpr (Or.inr hq)
    refine ih _ ?_ h2t
    cases e with
    | launch r hsig pa =>
      have hr : P r := h2 r (by rw [launchPids_cons]; simp)
      have hman : ∀ q ∈ (if r ∈ s.managed then s.managed else s.managed ++ [r]),
          P q := by
        split_ifs with hmem
        · exact h1
        · intro q hq
          rcases List.mem_append.mp hq with h | h
          · exact h1 q h
          · simp at h
            exact h ▸ hr
      cases hsig <;> cases pa <;> exact hman
    | abortFire r =>
      by_cases hmem : r ∈ s.listeners <;> simpa [pmStep, hmem] using h1
    | exit r =>
      intro q hq
      simp only [pmStep] at hq
      exact h1 q (List.mem_of_mem_erase hq)
    | dispose => simp [pmStep]

/-! ## Claim theorems for the process lifecycle -/

/-- C4.  Cancellation wiring of launchProcess.  If a cancellation signal
is supplied and already aborted at call time, the spawn step itself sends
SIGTERM to the child and attaches no listener.  Otherwise the spawn step
attaches a cancellation listener and sends nothing; the first firing of
the cancellation sends SIGTERM and consumes the listener (it is a once
listener), and a firing with no listener attached does nothing.  In every
trace in which the child eventually exits — and a SIGTERM-killed child
does exit, by the OS contract — wait() resolves. -/
theorem launch_cancellation (p : Nat) (s₀ s₁ : PMState) (t : List PMEv)
    (h₀ : p ∉ s₀.listeners) (h₁ : p ∈ s₁.listeners)
    (hex : PMEv.exit p ∈ t) :
    (pmStep s₀ (PMEv.launch p true true)).killLog
      = s₀.killLog ++ [(p, KillSig.SIGTERM)] ∧
    (pmStep s₀ (PMEv.launch p true true)).listeners = s₀.listeners ∧
    (pmStep s₀ (PMEv.launch p true false)).listeners
      = s₀.listeners ++ [p] ∧
    (pmStep s₀ (PMEv.launch p true false)).killLog = s₀.killLog ∧
    (pmStep s₁ (PMEv.abortFire p)).killLog
      = s₁.killLog ++ [(p, KillSig.SIGTERM)] ∧
    (pmStep s₁ (PMEv.abortFire p)).listeners = s₁.listeners.erase p ∧
    pmStep s₀ (PMEv.abortFire p) = s₀ ∧
    p ∈ (pmRun t).waitResolved := by
  refine ⟨by simp [pmStep], by simp [pmStep], by simp [pmStep, h₀],
    by simp [pmStep], by simp [pmStep, h₁], by simp [pmStep, h₁],
    by simp [pmStep, h₀], pm_exit_waitResolved p t pmInit hex⟩

/-- Witness for the C4 theorem: a fresh manager, the state right after a
launch that attached a listener, and a trace that launches a pre-aborted
child and sees it exit. -/
theorem launch_cancellation_witness :
    (1 ∉ pmInit.listeners) ∧
    (1 ∈ (pmStep pmInit (PMEv.launch 1 true false)).listeners) ∧
    (PMEv.exit 1 ∈ [PMEv.launch 1 true true, PMEv.exit 1]) ∧
    ((pmStep pmInit (PMEv.launch 1 true true)).killLog
        = pmInit.killLog ++ [(1, KillSig.SIGTERM)] ∧
      (pmStep pmInit (PMEv.launch 1 true true)).listeners
        = pmInit.listeners ∧
      (pmStep pmInit (PMEv.launch 1 true false)).listeners
        = pmInit.listeners ++ [1] ∧
      (pmStep pmInit (PMEv.launch 1 true false)).killLog
        = pmInit.killLog ∧
      (pmStep (pmStep pmInit (PMEv.launch 1 true false)) (PMEv.abortFire 1)).killLog
        = (pmStep pmInit (PMEv.launch 1 true false)).killLog
          ++ [(1, KillSig.SIGTERM)] ∧
      (pmStep (pmStep pmInit (PMEv.launch 1 true false)) (PMEv.abortFire 1)).listeners
        = (pmStep pmInit (PMEv.launch 1 true false)).listeners.erase 1 ∧
      pmStep pmInit (PMEv.abortFire 1) = pmInit ∧
      1 ∈ (pmRun [PMEv.launch 1 true true, PMEv.exit 1]).waitResolved) :=
  ⟨by decide, by decide, by decide,
    launch_cancellation 1 pmInit (pmStep pmInit (PMEv.launch 1 true false))
      [PMEv.launch 1 true true, PMEv.exit 1]
      (by decide) (by decide) (by decide)⟩

/-- C5 counterexample.  The claim says every spawned child is removed
from the managed set on its exit transition.  But dispose() clears the
whole managed set: in the trace launch 1, dispose, exit 1 the child is
removed by dispose (the removal log already reads [1] before the exit),
and the exit transition removes nothing (the log is unchanged by it and
the child is no longer in the set when it exits). -/
theorem managed_removal_not_at_exit_cex :
    (pmRun [PMEv.launch 1 false false, PMEv.dispose]).removals = [1] ∧
    1 ∉ (pmRun [PMEv.launch 1 false false, PMEv.dispose]).managed ∧
    (pmRun [PMEv.launch 1 false false, PMEv.dispose, PMEv.exit 1]).removals
      = [1] := by
  refine ⟨by decide, by decide, by decide⟩

/-- C5 amended.  In any well-formed trace (each child object is spawned
once), a child that is still in the managed set when its exit fires is
removed from the set exactly at that exit transition (the removal log
gains exactly its id there), its cancellation listener is detached at
that same transition, and it never re-enters the set: by the end of the
trace it was added exactly once and removed exactly once.  If dispose()
intervenes before the exit, the removal happens at dispose instead and
the exit-time removal is a no-op (see the counterexample), which is the
only correction to the claim. -/
theorem managed_set_lifecycle (t t1 t2 : List PMEv) (p : Nat)
    (hwf : (launchPids t).Nodup)
    (hsplit : t = t1 ++ PMEv.exit p :: t2)
    (hmem : p ∈ (pmRun t1).managed) :
    (pmRun (t1 ++ [PMEv.exit p])).removals = (pmRun t1).removals ++ [p] ∧
    p ∉ (pmRun (t1 ++ [PMEv.exit p])).managed ∧
    p ∉ (pmRun (t1 ++ [PMEv.exit p])).listeners ∧
    (pmRun t).removals.count p = 1 ∧
    p ∉ (pmRun t).managed ∧
    (pmRun t).additions = launchPids t ∧
    (pmRun t).additions.count p = 1 := by
  subst hsplit
  have hsplitL : launchPids (t1 ++ PMEv.exit p :: t2)
      = launchPids t1 ++ launchPids t2 := by
    rw [launchPids_append, launchPids_cons]
    simp
  rw [hsplitL] at hwf
  have hnd1 : (launchPids t1).Nodup := hwf.of_append_left
  have hdisj : ∀ q ∈ launchPids t1, q ∉ launchPids t2 :=
    fun q hq => List.disjoint_of_nodup_append hwf hq
  have hmnodup : (pmRun t1).managed.Nodup :=
    pm_managed_nodup t1 pmInit (by simp [pmInit])
  have hlnodup : (pmRun t1).listeners.Nodup :=
    pm_listeners_nodup t1 pmInit (by simp [pmInit])
  have hlaunched : p ∈ launchPids t1 :=
    pm_managed_sub (· ∈ launchPids t1) t1 pmInit
      (by simp [pmInit]) (fun q hq => hq) p hmem
  have hp2 : p ∉ launchPids t2 := hdisj p hlaunched
  have hstep : pmRun (t1 ++ [PMEv.exit p])
      = pmStep (pmRun t1) (PMEv.exit p) := by
    simp [pmRun, List.foldl_append]
  have hrem1 : (pmRun (t1 ++ [PMEv.exit p])).removals
      = (pmRun t1).removals ++ [p] := by
    rw [hstep]
    simp [pmStep, hmem]
  have hman1 : p ∉ (pmRun (t1 ++ [PMEv.exit p])).managed := by
    rw [hstep]
    simpa [pmStep] using hmnodup.not_mem_erase
  have hlis1 : p ∉ (pmRun (t1 ++ [PMEv.exit p])).listeners := by
    rw [hstep]
    simpa [pmStep] using hlnodup.not_mem_erase
  have hadd1 : (pmRun t1).additions = launchPids t1 := by
    have := pm_additions t1 pmInit
    simpa [pmRun, pmInit] using this
  have hcnt1 : (pmRun t1).removals.count p = 0 := by
    have hJ := pm_count_inv p t1 pmInit (by simp [pmInit])
    have hma : (pmRun t1).managed.count p = 1 :=
      List.count_eq_one_of_mem hmnodup hmem
    have hada : (pmRun t1).additions.count p = 1 := by
      rw [hadd1]
      exact List.count_eq_one_of_mem hnd1 hlaunched
    have hJ' : (pmRun t1).removals.count p + (pmRun t1).managed.count p
        ≤ (pmRun t1).additions.count p := hJ
    omega
  have hrun : pmRun (t1 ++ PMEv.exit p :: t2)
      = t2.foldl pmStep (pmRun (t1 ++ [PMEv.exit p])) := by
    simp [pmRun, List.foldl_append]
  have hout := pm_stay_out p t2 (pmRun (t1 ++ [PMEv.exit p])) hman1 hp2
  refine ⟨hrem1, hman1, hlis1, ?_, ?_, ?_, ?_⟩
  · rw [hrun, hout.2, hrem1, List.count_append, hcnt1,
      List.count_singleton]
    simp
  · rw [hrun]
    exact hout.1
  · have := pm_additions (t1 ++ PMEv.exit p :: t2) pmInit
    simpa [pmRun, pmInit] using this
  · have hadds : (pmRun (t1 ++ PMEv.exit p :: t2)).additions
        = launchPids (t1 ++ PMEv.exit p :: t2) := by
      have := pm_additions (t1 ++ PMEv.exit p :: t2) pmInit
      simpa [pmRun, pmInit] using this
    rw [hadds, hsplitL]
    have hmemL : p ∈ launchPids t1 ++ launchPids t2 :=
      List.mem_append.mpr (Or.inl hlaunched)
    exact List.count_eq_one_of_mem hwf hmemL

/-- Witness for the C5 amended theorem: one launch followed by its
exit. -/
theorem managed_set_lifecycle_witness :
    ((launchPids [PMEv.launch 1 false false, PMEv.exit 1]).Nodup) ∧
    ([PMEv.launch 1 false false, PMEv.exit 1]
      = [PMEv.launch 1 false false] ++ PMEv.exit 1 :: []) ∧
    (1 ∈ (pmRun [PMEv.launch 1 false false]).managed) ∧
    ((pmRun ([PMEv.launch 1 false false] ++ [PMEv.exit 1])).removals
        = (pmRun [PMEv.launch 1 false false]).removals ++ [1] ∧
      1 ∉ (pmRun ([PMEv.launch 1 false false] ++ [PMEv.exit 1])).managed ∧
      1 ∉ (pmRun ([PMEv.launch 1 false false] ++ [PMEv.exit 1])).listeners ∧
      (pmRun [PMEv.launch 1 false false, PMEv.exit 1]).removals.count 1 = 1 ∧
      1 ∉ (pmRun [PMEv.launch 1 false false, PMEv.exit 1]).managed ∧
      (pmRun [PMEv.launch 1 false false, PMEv.exit 1]).additions
        = launchPids [PMEv.launch 1 false false, PMEv.exit 1] ∧
      (pmRun [PMEv.launch 1 false false, PMEv.exit 1]).additions.count 1
        = 1) :=
  ⟨by decide, by decide, by decide,
    managed_set_lifecycle [PMEv.launch 1 false false, PMEv.exit 1]
      [PMEv.launch 1 false false] [] 1
      (by decide) (by decide) (by decide)⟩

/-! ## killProcess (src/modules/processManager/index.ts) and the error
taxonomy (src/core/errors.ts) -/

/-- SystemBridgeErrorCode from src/core/errors.ts. -/
inductive SystemBridgeErrorCode where
  | UNSUPPORTED_OPERATION
  | PERMISSION_DENIED
  | OPERATION_FAILED
  | INVALID_ARGUMENT
  | TIMEOUT
  | NOT_INITIALIZED
deriving DecidableEq

/-- SystemBridgeError: message, code, and the underlying cause (the
raised value of the failing collaborator call, rendered abstractly as a
string). -/
structure SystemBridgeError where
  message : String
  code : SystemBridgeErrorCode
  cause : Option String
deriving DecidableEq

/-- KillProcessResult from the source. -/
structure KillProcessResult where
  success : Bool
  signal : Option KillSig
deriving DecidableEq

/-- The OS signal-delivery primitive (node's process.kill): it either
returns a boolean or raises.  The declared interface of node's
process.kill returns the literal true and raises on failure (no such
process, permission denied); killProcess is verified against an
arbitrary primitive, with that contract as a hypothesis where needed. -/
abbrev OsKill := Nat → KillSig → Except String Bool

/-- killProcess from the source: call the primitive; its boolean result
(coerced through a ternary in the source) becomes the success field and
the requested signal is echoed back; if the primitive raises, the error
is logged and a SystemBridgeError with code OPERATION_FAILED is thrown,
carrying the pid in its message and the raised value as its cause.  The
TypeScript default for the signal parameter is SIGTERM. -/
def killProcess (osKill : OsKill) (pid : Nat) (signal : KillSig) :
    Except SystemBridgeError KillProcessResult :=
  match osKill pid signal with
  | .ok b => .ok { success := b, signal := some signal }
  | .error e =>
    .error { message := "Unable to kill pid " ++ toString pid
             code := .OPERATION_FAILED
             cause := some e }

/-- Whether an Except value is a normal return. -/
def exceptIsOk {ε α : Type} : Except ε α → Bool
  | .ok _ => true
  | .error _ => false

/-- C8.  When the OS signal delivery succeeds (node's process.kill
returns true), killProcess returns success true together with the
requested signal; when the delivery call raises, killProcess throws a
SystemBridgeError with code OPERATION_FAILED whose message names the pid
and whose cause is the underlying raised value — and in that case no
success result of any kind is returned. -/
theorem killProcess_semantics (osk₁ osk₂ : OsKill) (pid : Nat)
    (sig : KillSig) (e : String)
    (hok : osk₁ pid sig = .ok true)
    (herr : osk₂ pid sig = .error e) :
    killProcess osk₁ pid sig = .ok { success := true, signal := some sig } ∧
    killProcess osk₂ pid sig
      = .error { message := "Unable to kill pid " ++ toString pid
                 code := .OPERATION_FAILED
                 cause := some e } ∧
    exceptIsOk (killProcess osk₂ pid sig) = false := by
  refine ⟨?_, ?_, ?_⟩
  · rw [killProcess, hok]
  · rw [killProcess, herr]
  · rw [killProcess, herr]
    rfl

/-- Witness for the C8 theorem: one primitive that succeeds and one that
raises, at pid 7 with SIGTERM (the TypeScript default). -/
theorem killProcess_semantics_witness :
    (fun (_ : Nat) (_ : KillSig) => (Except.ok true : Except String Bool)) 7
        KillSig.SIGTERM = .ok true ∧
    (fun (_ : Nat) (_ : KillSig) =>
        (Except.error "ESRCH" : Except String Bool)) 7
        KillSig.SIGTERM = .error "ESRCH" ∧
    (killProcess (fun _ _ => .ok true) 7 KillSig.SIGTERM
        = .ok { success := true, signal := some KillSig.SIGTERM } ∧
      killProcess (fun _ _ => .error "ESRCH") 7 KillSig.SIGTERM
        = .error { message := "Unable to kill pid " ++ toString 7
                   code := .OPERATION_FAILED
                   cause := some "ESRCH" } ∧
      exceptIsOk (killProcess (fun _ _ => .error "ESRCH") 7 KillSig.SIGTERM)
        = false) :=
  ⟨rfl, rfl,
    killProcess_semantics (fun _ _ => .ok true) (fun _ _ => .error "ESRCH")
      7 KillSig.SIGTERM "ESRCH" rfl rfl⟩

/-- C10.  Under the declared contract of node's process.kill — it either
raises or returns true, never false — every normal return of killProcess
has success true: the success-false outcome is unreachable. -/
theorem killProcess_success_always_true (osKill : OsKill)
    (hcontract : ∀ (q : Nat) (sg : KillSig) (b : Bool),
      osKill q sg = .ok b → b = true)
    (pid : Nat) (sig : KillSig) (r : KillProcessResult)
    (hret : killProcess osKill pid sig = .ok r) :
    r.success = true := by
  rw [killProcess] at hret
  cases hc : osKill pid sig with
  | ok b =>
    rw [hc] at hret
    cases hret
    exact hcontract pid sig b hc
  | error e =>
    rw [hc] at hret
    cases hret

/-- Witness for the C10 theorem: the always-succeeding primitive. -/
theorem killProcess_success_always_true_witness :
    (∀ (q : Nat) (sg : KillSig) (b : Bool),
      (fun (_ : Nat) (_ : KillSig) => (Except.ok true : Except String Bool))
          q sg = .ok b → b = true) ∧
    killProcess (fun _ _ => .ok true) 7 KillSig.SIGTERM
      = .ok { success := true, signal := some KillSig.SIGTERM } ∧
    ({ success := true, signal := some KillSig.SIGTERM }
        : KillProcessResult).success = true :=
  ⟨fun _ _ b hb => by cases hb; rfl, rfl,
    killProcess_success_always_true (fun _ _ => .ok true)
      (fun _ _ b hb => by cases hb; rfl) 7 KillSig.SIGTERM
      { success := true, signal := some KillSig.SIGTERM } rfl⟩

/-! ## The spawn calls (launchProcess and execCommand)

The spawn primitive receives a command, a discrete argument list, and an
options object.  The shell field records whether shell interpretation was
requested: launchProcess passes an options object without a shell key, so
node's default of no shell applies; execCommand passes shell false
explicitly.  The remaining spawn options (cwd, env, detached, stdio,
windowsHide, signal) are configuration that never touches the command or
argument values and is omitted here. -/

/-- One call of the spawn primitive as observed by the OS. -/
structure SpawnCall where
  command : String
  args : List String
  shell : Bool
deriving DecidableEq

/-- LaunchProcessOptions from the source (fields not involved in the
spawn-shape claims are omitted: cwd, env, detached, abortSignal,
stdio). -/
structure LaunchProcessOptions where
  command : String
  args : Option (List String)
deriving DecidableEq

/-- The spawn call made by launchProcess:
spawn(command, args, cwd, env, detached, stdio) with args defaulted to
the empty list and no shell key in the options object. -/
def launchSpawnCall (o : LaunchProcessOptions) : SpawnCall :=
  { command := o.command, args := o.args.getD [], shell := false }

/-- The spawn call made by execCommand in src/utils/exec.ts:
spawn(command, args, ..., shell: false, ...) with args defaulted to the
empty list. -/
def execSpawnCall (command : String) (args : Option (List String)) :
    SpawnCall :=
  { command := command, args := args.getD [], shell := false }

/-- C9.  For every launchProcess call and every direct command
execution, the command string and the argument list reach the spawn
primitive verbatim, as a discrete list, with no shell interpretation:
the shell flag of the spawn call is false in both code paths and the
command and arguments are never concatenated or otherwise altered,
whatever characters they contain. -/
theorem spawn_no_shell (o : LaunchProcessOptions) (command : String)
    (args : List String) :
    (launchSpawnCall o).command = o.command ∧
    (launchSpawnCall o).args = o.args.getD [] ∧
    (launchSpawnCall o).shell = false ∧
    (execSpawnCall command (some args)).command = command ∧
    (execSpawnCall command (some args)).args = args ∧
    (execSpawnCall command (some args)).shell = false := by
  exact ⟨rfl, rfl, rfl, rfl, rfl, rfl⟩

end ProcessManager

end SystemBridge
